import Mathlib

/-!
# Shallow embedding of `src/main.cpp` (TLBCharacteristics)

The program measures memory latency over a grid of (working-set length,
stride) pairs.  This file embeds, faithfully to the C++ source:

* the obfuscation constant `mask` and the cycle construction `create_cycle`
  (the call to `random_shuffle` is modelled by quantifying over an arbitrary
  permutation `perm` of `{1, …, active_positions - 1}`);
* the buffer as a function `Nat → Nat` from element offsets to stored values,
  with the sequential stores of `create_cycle` applied via `Function.update`;
* the pointer-chasing loop `traverse` (its list of read offsets and the
  accumulator sum);
* the grid-building `while` loops of `main` (`stride_sizes`, `length_sizes`)
  and the trial count;
* the skip rule of `measure` (which `(i, j)` cells invoke the callback);
* the aggregation `average` (C++ `double` values are modelled as `ℚ`, and the
  C++ NaN outcomes — the explicit `quiet_NaN` for an empty vector and the
  `0.0/0` when the kept count is zero — are modelled as `none`; the kept
  count `(int)(size * 0.8)` equals `size * 4 / 5` in exact arithmetic for
  every vector size below `2^49`, far above any size the program can reach);
* the breakpoint scans `find_cache_length` and `find_cache_line_length` and
  the glue code of `main` that runs them and converts indices to reported
  byte/KB figures (`mainOutputs`).
-/

namespace TLBC

/-- `constexpr int mask = 1454213;` from the source. -/
def mask : Nat := 1454213

/-- The sequence of stores performed by the loop of `create_cycle`:
starting at slot `cur`, for each `i` in the index list store at element offset
`cur * stride` the value `(i * stride) ^^^ mask` and continue from slot `i`.
Returned as the list of (offset, value) pairs in program order. -/
def cycleWrites (stride : Nat) : Nat → List Nat → List (Nat × Nat)
  | _, [] => []
  | cur, i :: rest => (cur * stride, (i * stride) ^^^ mask) :: cycleWrites stride i rest

/-- Apply a list of stores, in order, to a buffer (later stores win). -/
def applyWrites (ws : List (Nat × Nat)) (buf : Nat → Nat) : Nat → Nat :=
  ws.foldl (fun b w => Function.update b w.1 w.2) buf

/-- `create_cycle(memory_begin, length, stride)` from the source: the index
list is a shuffle `perm` of `{1, …, length-1}` with `0` appended, and the
stores of the loop are applied to the initial buffer contents `buf`. -/
def create_cycle (stride : Nat) (perm : List Nat) (buf : Nat → Nat) : Nat → Nat :=
  applyWrites (cycleWrites stride 0 (perm ++ [0])) buf

/-- Decode the stored next-pointer of logical slot `s`: read the buffer at
element offset `s * stride`, XOR with `mask`, divide by `stride`. -/
def nextSlot (stride : Nat) (b : Nat → Nat) (s : Nat) : Nat :=
  (b (s * stride) ^^^ mask) / stride

/-- The logical slots visited by starting at slot 0 and following the stored
(decoded) next-pointers: step `k` is at `(nextSlot stride b)^[k] 0`. -/
def visitList (n stride : Nat) (b : Nat → Nat) : List Nat :=
  (List.range n).map (fun k => (nextSlot stride b)^[k] 0)

/-- The body of `traverse(length, memory_begin, sum)` from the source:
`cur = *(memory_begin + cur) ^ mask; sum += cur;`, repeated `steps` times
from raw element offset `cur`.  Returns the final accumulator together with
the list of element offsets read, in program order. -/
def traverse (b : Nat → Nat) : Nat → Nat → Nat → Nat × List Nat
  | _, sum, 0 => (sum, [])
  | cur, sum, steps + 1 =>
    let nxt := b cur ^^^ mask
    let r := traverse b nxt (sum + nxt) steps
    (r.1, cur :: r.2)

/-- One `while (v.back() <= limit) v.push_back(v.back() * 2);` loop of `main`,
started from the singleton `{cur}`: returns the final vector contents.
(The source only runs it from a positive seed; the `0 < cur` guard makes the
recursion well-founded without changing those runs.) -/
def growPow (limit cur : Nat) : List Nat :=
  if h : 0 < cur ∧ cur ≤ limit then cur :: growPow limit (2 * cur) else [cur]
termination_by limit + 1 - cur
decreasing_by omega

/-- `stride_sizes` built by `main`: start `{1}`, double while the back is at
most 128. -/
def stride_sizes : List Nat := growPow 128 1

/-- `length_sizes` built by `main`: start `{256}`, double while the back is at
most `64 * 1024`. -/
def length_sizes : List Nat := growPow (64 * 1024) 256

/-- The trial count of `main`: `for (int i = 0; i < 100; ++i) measure(...)`. -/
def numTrials : Nat := 100

/-- The `(i, j)` index pairs for which `measure` invokes the `on_result`
callback: the outer loop runs over length indices `i`, the inner loop over
stride indices `j`, and a pair is skipped (`continue`, before allocation,
cycle construction and timing) when `active_positions = length / gap <= 4`. -/
def measureCalls (strideSizes lengthSizes : List Nat) : List (Nat × Nat) :=
  (List.range lengthSizes.length).flatMap (fun i =>
    (List.range strideSizes.length).filterMap (fun j =>
      if lengthSizes.getD i 0 / strideSizes.getD j 0 ≤ 4 then none else some (i, j)))

/-- The `sort(values.begin(), values.end())` step of `average`, modelled by a
comparison sort (its result is determined by being a sorted permutation). -/
def sortedVals (l : List Int) : List Int := l.insertionSort (· ≤ ·)

/-- `average(values)` from the source, returning both the result and the
final contents of the (mutated, sorted in place) vector.  An empty vector
returns `quiet_NaN` untouched; otherwise the vector is sorted, the lowest
`(int)(size * 0.8) = size * 4 / 5` values are kept, and their mean is
returned — when that kept count is zero the C++ expression is `0.0 / 0`,
again NaN.  NaN is modelled as `none`. -/
def averageRun (l : List Int) : Option ℚ × List Int :=
  if l = [] then (none, l)
  else
    let s := sortedVals l
    let e := l.length * 4 / 5
    if e = 0 then (none, s)
    else (some (((s.take e).map (fun x : Int => (x : ℚ))).sum / (e : ℚ)), s)

/-- The value returned by `average(values)`. -/
def average (l : List Int) : Option ℚ := (averageRun l).1

/-- `find_cache_length(lengths, av_result)` from the source: scan row index
`i` from 1 to `lengths - 1`, return `i - 1` at the first `i` with
`av_result[i][0] > av_result[i-1][0] * 1.2`, and `-1` (here `none`) if no
such `i` exists.  The C++ `double` grid is modelled as `av : ℚ` indexed
`av (length index) (stride index)`; the literal `1.2` is the exact `6/5`. -/
def find_cache_length (lengths : Nat) (av : Nat → Nat → ℚ) : Option Nat :=
  ((List.range' 1 (lengths - 1)).find?
      (fun i => decide (av (i - 1) 0 * (6 / 5) < av i 0))).map (fun i => i - 1)

/-- `find_cache_line_length(cache_length_idx, strides, av_result)` from the
source: scan stride index `i` from 1 to `strides - 1` in the row
`av_result[cache_length_idx + 1]`, return the first `i` with
`av_result[row][i] > av_result[row][i-1] * 1.1`, else `-1` (here `none`).
`cache_length_idx` is the C++ `int`, which `main` may pass as `-1`; the
literal `1.1` is the exact `11/10`. -/
def find_cache_line_length (cache_length_idx : Int) (strides : Nat)
    (av : Nat → Nat → ℚ) : Option Nat :=
  (List.range' 1 (strides - 1)).find?
    (fun i => decide (av (cache_length_idx + 1).toNat (i - 1) * (11 / 10)
      < av (cache_length_idx + 1).toNat i))

/-- The heuristic stage of `main`, applied to an aggregated grid `av`:
`main` calls `find_cache_length(strides, av_result)` — note the argument is
`strides = stride_sizes.size()`, not `lengths` — then unconditionally calls
`find_cache_line_length(cache_length_idx, strides, av_result)` with the
returned index (`-1` when not found).  The first component is the reported
cache capacity `length_sizes[idx] * sizeof(int) / 1024` (in KB), the second
the reported line size `stride_sizes[idx] * sizeof(int)` (in bytes); `none`
is the corresponding "not found" line. -/
def mainOutputs (av : Nat → Nat → ℚ) : Option Nat × Option Nat :=
  let cidx := find_cache_length stride_sizes.length av
  let cint : Int := match cidx with
    | none => -1
    | some j => (j : Int)
  let lidx := find_cache_line_length cint stride_sizes.length av
  (cidx.map (fun j => length_sizes.getD j 0 * 4 / 1024),
   lidx.map (fun i => stride_sizes.getD i 0 * 4))

/-! ## Helper lemmas about the stores of `create_cycle` -/

/-- The stores of the `create_cycle` loop, as a zip: the `k`-th store goes to
the `k`-th visited slot (`cur` followed by all list elements but the last)
and holds the masked, stride-scaled `k`-th list element. -/
theorem cycleWrites_eq_zip (stride : Nat) (l : List Nat) :
    ∀ cur : Nat,
      cycleWrites stride cur l =
        ((cur :: l.dropLast).map (· * stride)).zip
          (l.map fun x => (x * stride) ^^^ mask) := by
  induction l with
  | nil => intro cur; simp [cycleWrites]
  | cons i rest ih =>
    intro cur
    cases rest with
    | nil => simp [cycleWrites]
    | cons r rs =>
      have step : cycleWrites stride cur (i :: r :: rs)
          = (cur * stride, (i * stride) ^^^ mask) :: cycleWrites stride i (r :: rs) := rfl
      rw [step, ih i]
      simp [List.dropLast_cons₂, List.zip_cons_cons]

/-- A store list never touching offset `a` leaves the buffer unchanged there. -/
theorem applyWrites_of_notMem (ws : List (Nat × Nat)) (a : Nat)
    (h : a ∉ ws.map Prod.fst) : ∀ buf : Nat → Nat, applyWrites ws buf a = buf a := by
  induction ws with
  | nil => intro buf; rfl
  | cons w rest ih =>
    intro buf
    simp only [List.map_cons, List.mem_cons, not_or] at h
    show applyWrites rest (Function.update buf w.1 w.2) a = buf a
    rw [ih h.2]
    exact Function.update_noteq h.1 _ _

/-- With pairwise distinct store offsets, the final buffer holds each stored
value at its offset. -/
theorem applyWrites_lookup (ws : List (Nat × Nat)) (hnd : (ws.map Prod.fst).Nodup)
    {a v : Nat} (hmem : (a, v) ∈ ws) : ∀ buf : Nat → Nat, applyWrites ws buf a = v := by
  induction ws with
  | nil => cases hmem
  | cons w rest ih =>
    intro buf
    simp only [List.map_cons, List.nodup_cons] at hnd
    show applyWrites rest (Function.update buf w.1 w.2) a = v
    rcases List.mem_cons.mp hmem with h | h
    · have ha : a = w.1 := by rw [← h]
      have hv : v = w.2 := by rw [← h]
      subst ha; subst hv
      rw [applyWrites_of_notMem rest _ hnd.1]
      simp
    · exact ih hnd.2 h _

/-- The buffer written by `create_cycle` stores, at the (stride-scaled) `k`-th
slot of the visit order `0 :: perm`, the masked (stride-scaled) `(k+1) mod n`-th
slot: the stored pointers follow `0 :: perm` cyclically. -/
theorem create_cycle_read (stride : Nat) (perm : List Nat) (buf : Nat → Nat)
    (hs : 0 < stride) (hnd : (0 :: perm).Nodup) (k : Nat)
    (hk : k < (0 :: perm).length) :
    create_cycle stride perm buf ((0 :: perm).getD k 0 * stride) =
      ((0 :: perm).getD ((k + 1) % (0 :: perm).length) 0 * stride) ^^^ mask := by
  set L : List Nat := 0 :: perm with hL
  have hrot : L.rotate 1 = perm ++ [0] := by
    rw [hL, List.rotate_cons_succ, List.rotate_zero]
  have hzip : cycleWrites stride 0 (perm ++ [0]) =
      (L.map (· * stride)).zip ((L.rotate 1).map fun x => (x * stride) ^^^ mask) := by
    rw [cycleWrites_eq_zip, hrot, List.dropLast_concat]
  have hmem : (L.getD k 0 * stride,
      (L.getD ((k + 1) % L.length) 0 * stride) ^^^ mask)
      ∈ cycleWrites stride 0 (perm ++ [0]) := by
    rw [hzip]
    have hkz : k < ((L.map (· * stride)).zip
        ((L.rotate 1).map fun x => (x * stride) ^^^ mask)).length := by
      simpa [List.length_zip, List.length_rotate] using hk
    have hk1 : k < (L.map (· * stride)).length := by simpa using hk
    have hk2 : k < ((L.rotate 1).map fun x => (x * stride) ^^^ mask).length := by
      simpa [List.length_rotate] using hk
    have hmem0 := List.getElem_mem hkz
    rw [List.getElem_zip] at hmem0
    have hmod : (k + 1) % L.length < L.length := Nat.mod_lt _ (by simp [hL])
    have e1 : (L.map (· * stride))[k] = L.getD k 0 * stride := by
      rw [List.getElem_map, List.getD_eq_getElem _ _ hk]
    have e2 : ((L.rotate 1).map fun x => (x * stride) ^^^ mask)[k] =
        (L.getD ((k + 1) % L.length) 0 * stride) ^^^ mask := by
      rw [List.getElem_map, List.getElem_rotate, List.getD_eq_getElem _ _ hmod]
    rw [e1, e2] at hmem0
    exact hmem0
  have hfst : (cycleWrites stride 0 (perm ++ [0])).map Prod.fst = L.map (· * stride) := by
    rw [hzip]
    exact List.map_fst_zip _ _ (by simp [List.length_rotate])
  have hndmap : ((cycleWrites stride 0 (perm ++ [0])).map Prod.fst).Nodup := by
    rw [hfst]
    exact hnd.map (fun a b hab => Nat.eq_of_mul_eq_mul_right hs hab)
  exact applyWrites_lookup _ hndmap hmem buf

/-- Decoding (XOR with the mask, divide by the stride) the value stored at the
`k`-th slot of the visit order recovers the `(k+1) mod n`-th slot. -/
theorem nextSlot_getD (stride : Nat) (perm : List Nat) (buf : Nat → Nat)
    (hs : 0 < stride) (hnd : (0 :: perm).Nodup) (k : Nat)
    (hk : k < (0 :: perm).length) :
    nextSlot stride (create_cycle stride perm buf) ((0 :: perm).getD k 0) =
      (0 :: perm).getD ((k + 1) % (0 :: perm).length) 0 := by
  unfold nextSlot
  rw [create_cycle_read stride perm buf hs hnd k hk]
  rw [Nat.xor_assoc, Nat.xor_self, Nat.xor_zero]
  exact Nat.mul_div_cancel _ hs

/-- Starting at slot 0, the `k`-th decoded step lands on the `k`-th element of
the visit order `0 :: perm`. -/
theorem iterate_nextSlot (stride : Nat) (perm : List Nat) (buf : Nat → Nat)
    (hs : 0 < stride) (hnd : (0 :: perm).Nodup) :
    ∀ k, k < (0 :: perm).length →
      (nextSlot stride (create_cycle stride perm buf))^[k] 0 = (0 :: perm).getD k 0 := by
  intro k
  induction k with
  | zero => intro _; rfl
  | succ k ih =>
    intro hk1
    have hk : k < (0 :: perm).length := Nat.lt_of_succ_lt hk1
    rw [Function.iterate_succ_apply', ih hk,
      nextSlot_getD stride perm buf hs hnd k hk, Nat.mod_eq_of_lt hk1]

/-- C1: for `active_positions = n ≥ 1` and `stride ≥ 1`, after `create_cycle`
writes the buffer (for any shuffle `perm` of `{1, …, n-1}`), starting at
logical slot 0 and repeatedly following the stored next-pointer (decoding each
stored value by XOR with the mask and dividing by the stride) visits every
slot in `{0, …, n-1}` exactly once — the list of the first `n` stops is a
permutation of `{0, …, n-1}` — and returns to slot 0 on the `n`-th step, so
the stored pointers form exactly one cycle with no sub-cycles. -/
theorem create_cycle_single_cycle (n stride : Nat) (perm : List Nat) (buf : Nat → Nat)
    (hn : 1 ≤ n) (hs : 1 ≤ stride) (hp : perm.Perm (List.range' 1 (n - 1))) :
    (visitList n stride (create_cycle stride perm buf)).Perm (List.range n) ∧
    (nextSlot stride (create_cycle stride perm buf))^[n] 0 = 0 := by
  obtain ⟨m, rfl⟩ : ∃ m, n = m + 1 := ⟨n - 1, by omega⟩
  have hm : m + 1 - 1 = m := rfl
  rw [hm] at hp
  have hplen : perm.length = m := by simpa using hp.length_eq
  have hLlen : (0 :: perm).length = m + 1 := by simp [hplen]
  have h0 : 0 ∉ perm := by
    intro h
    have h2 := hp.subset h
    simp [List.mem_range'_1] at h2
  have hnd : (0 :: perm).Nodup :=
    List.nodup_cons.mpr ⟨h0, hp.nodup_iff.mpr (List.nodup_range' _ _)⟩
  have hvisit : visitList (m + 1) stride (create_cycle stride perm buf) = 0 :: perm := by
    apply List.ext_get
    · simp [visitList, hLlen]
    · intro j h1 h2
      have hj : j < m + 1 := by simpa [visitList] using h1
      have hjL : j < (0 :: perm).length := by omega
      simp only [visitList, List.get_eq_getElem, List.getElem_map, List.getElem_range]
      rw [iterate_nextSlot stride perm buf hs hnd j hjL]
      exact List.getD_eq_getElem _ _ hjL
  constructor
  · rw [hvisit, List.range_eq_range', List.range'_succ]
    exact hp.cons 0
  · rw [Function.iterate_succ_apply',
      iterate_nextSlot stride perm buf hs hnd m (by omega),
      nextSlot_getD stride perm buf hs hnd m (by omega), hLlen, Nat.mod_self]
    rfl

/-- Witness for C1: the concrete instance `n = 5`, `stride = 2`,
`perm = [3, 1, 4, 2]`, zero-initialized buffer. -/
theorem create_cycle_single_cycle_witness :
    (visitList 5 2 (create_cycle 2 [3, 1, 4, 2] (fun _ => 0))).Perm (List.range 5) ∧
    (nextSlot 2 (create_cycle 2 [3, 1, 4, 2] (fun _ => 0)))^[5] 0 = 0 :=
  create_cycle_single_cycle 5 2 [3, 1, 4, 2] (fun _ => 0) (by decide) (by decide) (by decide)

/-- The offsets stored to by `create_cycle` are exactly the stride-scaled
slots of the visit order `0 :: perm`. -/
theorem cycleWrites_fst (stride : Nat) (perm : List Nat) :
    (cycleWrites stride 0 (perm ++ [0])).map Prod.fst = (0 :: perm).map (· * stride) := by
  rw [cycleWrites_eq_zip, List.dropLast_concat]
  exact List.map_fst_zip _ _ (by simp)

/-- Every slot of the visit order `0 :: perm` is below `n`. -/
theorem visitOrder_lt (n : Nat) (perm : List Nat) (hn : 1 ≤ n)
    (hp : perm.Perm (List.range' 1 (n - 1))) :
    ∀ x ∈ (0 :: perm), x < n := by
  intro x hx
  rcases List.mem_cons.mp hx with rfl | hx
  · omega
  · have h2 := hp.subset hx
    rw [List.mem_range'_1] at h2
    omega

/-- The visit order `0 :: perm` has no duplicate slots. -/
theorem nodup_visitOrder (n : Nat) (perm : List Nat)
    (hp : perm.Perm (List.range' 1 (n - 1))) : (0 :: perm).Nodup := by
  refine List.nodup_cons.mpr ⟨fun h => ?_, hp.nodup_iff.mpr (List.nodup_range' _ _)⟩
  have h2 := hp.subset h
  simp [List.mem_range'_1] at h2

/-- Every offset read by `traverse`, started from the (stride-scaled) `k`-th
slot of the visit order, is a stride-scaled slot of the visit order. -/
theorem traverse_reads_shape (stride : Nat) (perm : List Nat) (buf : Nat → Nat)
    (hs : 0 < stride) (hnd : (0 :: perm).Nodup) :
    ∀ (steps sum k : Nat), k < (0 :: perm).length →
      ∀ a ∈ (traverse (create_cycle stride perm buf)
          ((0 :: perm).getD k 0 * stride) sum steps).2,
        ∃ x ∈ (0 :: perm), a = x * stride := by
  intro steps
  induction steps with
  | zero => intro sum k hk a ha; cases ha
  | succ t ih =>
    intro sum k hk a ha
    have hnxt : create_cycle stride perm buf ((0 :: perm).getD k 0 * stride) ^^^ mask =
        (0 :: perm).getD ((k + 1) % (0 :: perm).length) 0 * stride := by
      rw [create_cycle_read stride perm buf hs hnd k hk,
        Nat.xor_assoc, Nat.xor_self, Nat.xor_zero]
    rw [show (traverse (create_cycle stride perm buf)
          ((0 :: perm).getD k 0 * stride) sum (t + 1)).2 =
        (0 :: perm).getD k 0 * stride ::
          (traverse (create_cycle stride perm buf)
            (create_cycle stride perm buf ((0 :: perm).getD k 0 * stride) ^^^ mask)
            (sum + (create_cycle stride perm buf ((0 :: perm).getD k 0 * stride) ^^^ mask))
            t).2 from rfl, hnxt] at ha
    rcases List.mem_cons.mp ha with rfl | ha
    · refine ⟨(0 :: perm).getD k 0, ?_, rfl⟩
      rw [List.getD_eq_getElem _ _ hk]
      exact List.getElem_mem hk
    · have hmod : (k + 1) % (0 :: perm).length < (0 :: perm).length :=
        Nat.mod_lt _ (by simp)
      exact ih _ _ hmod a ha

/-- C9: for `length ≥ 1`, `stride ≥ 1`, `active_positions = length / stride`
and `active_positions > 4`, every buffer write performed by `create_cycle`
(for any shuffle `perm`) and every buffer read performed by `traverse` (for
any step count and accumulator, starting from position 0) addresses an element
offset strictly below `length`: all accesses stay inside the allocated
`length`-element buffer. -/
theorem memory_accesses_in_bounds (len stride : Nat) (perm : List Nat) (buf : Nat → Nat)
    (hs : 1 ≤ stride) (hap : 4 < len / stride)
    (hp : perm.Perm (List.range' 1 (len / stride - 1))) :
    (∀ a ∈ (cycleWrites stride 0 (perm ++ [0])).map Prod.fst, a < len) ∧
    (∀ steps : Nat, ∀ a ∈ (traverse (create_cycle stride perm buf) 0 0 steps).2, a < len) := by
  have hn1 : 1 ≤ len / stride := by omega
  have hlt : ∀ x ∈ (0 :: perm), x < len / stride := visitOrder_lt _ perm hn1 hp
  have hmul : ∀ x ∈ (0 :: perm), x * stride < len := by
    intro x hx
    have hx1 := hlt x hx
    have h2 : x * stride < (len / stride) * stride :=
      (Nat.mul_lt_mul_right (by omega)).mpr hx1
    exact Nat.lt_of_lt_of_le h2 (Nat.div_mul_le_self len stride)
  constructor
  · intro a ha
    rw [cycleWrites_fst] at ha
    obtain ⟨x, hx, rfl⟩ := List.mem_map.mp ha
    exact hmul x hx
  · intro steps a ha
    have hnd : (0 :: perm).Nodup := nodup_visitOrder _ perm hp
    have h00 : (0 : Nat) = (0 :: perm).getD 0 0 * stride := by simp
    rw [h00] at ha
    obtain ⟨x, hx, rfl⟩ :=
      traverse_reads_shape stride perm buf (by omega) hnd steps
        ((0 :: perm).getD 0 0 * stride) 0 (by simp) a ha
    exact hmul x hx

/-- Witness for C9: `length = 16`, `stride = 2` (so 8 active positions),
`perm = [3, 1, 5, 7, 2, 6, 4]`, zero-initialized buffer. -/
theorem memory_accesses_in_bounds_witness :
    (∀ a ∈ (cycleWrites 2 0 ([3, 1, 5, 7, 2, 6, 4] ++ [0])).map Prod.fst, a < 16) ∧
    (∀ steps : Nat,
      ∀ a ∈ (traverse (create_cycle 2 [3, 1, 5, 7, 2, 6, 4] (fun _ => 0)) 0 0 steps).2,
        a < 16) :=
  memory_accesses_in_bounds 16 2 [3, 1, 5, 7, 2, 6, 4] (fun _ => 0)
    (by decide) (by decide) (by decide)

/-! ## The swept grid -/

/-- One push of the grid-building `while` loop: while the back is positive and
at most the limit, the doubled value is appended. -/
theorem growPow_step (limit cur : Nat) (h1 : 0 < cur) (h2 : cur ≤ limit) :
    growPow limit cur = cur :: growPow limit (2 * cur) := by
  rw [growPow]
  simp [h1, h2]

/-- The grid-building `while` loop stops once the back exceeds the limit. -/
theorem growPow_stop (limit cur : Nat) (h : limit < cur) :
    growPow limit cur = [cur] := by
  rw [growPow]
  simp [Nat.not_le_of_lt h]

/-- The stride list built by `main`: the loop pushes `back * 2` while
`back <= 128`, so the final push (from back 128) appends 256. -/
theorem stride_sizes_eq : stride_sizes = [1, 2, 4, 8, 16, 32, 64, 128, 256] := by
  unfold stride_sizes
  rw [growPow_step _ _ (by norm_num) (by norm_num)]; norm_num
  rw [growPow_step _ _ (by norm_num) (by norm_num)]; norm_num
  rw [growPow_step _ _ (by norm_num) (by norm_num)]; norm_num
  rw [growPow_step _ _ (by norm_num) (by norm_num)]; norm_num
  rw [growPow_step _ _ (by norm_num) (by norm_num)]; norm_num
  rw [growPow_step _ _ (by norm_num) (by norm_num)]; norm_num
  rw [growPow_step _ _ (by norm_num) (by norm_num)]; norm_num
  rw [growPow_step _ _ (by norm_num) (by norm_num)]; norm_num
  rw [growPow_stop _ _ (by norm_num)]

/-- The length list built by `main`: the loop pushes `back * 2` while
`back <= 65536`, so the final push (from back 65536) appends 131072. -/
theorem length_sizes_eq :
    length_sizes = [256, 512, 1024, 2048, 4096, 8192, 16384, 32768, 65536, 131072] := by
  unfold length_sizes
  rw [growPow_step _ _ (by norm_num) (by norm_num)]; norm_num
  rw [growPow_step _ _ (by norm_num) (by norm_num)]; norm_num
  rw [growPow_step _ _ (by norm_num) (by norm_num)]; norm_num
  rw [growPow_step _ _ (by norm_num) (by norm_num)]; norm_num
  rw [growPow_step _ _ (by norm_num) (by norm_num)]; norm_num
  rw [growPow_step _ _ (by norm_num) (by norm_num)]; norm_num
  rw [growPow_step _ _ (by norm_num) (by norm_num)]; norm_num
  rw [growPow_step _ _ (by norm_num) (by norm_num)]; norm_num
  rw [growPow_step _ _ (by norm_num) (by norm_num)]; norm_num
  rw [growPow_stop _ _ (by norm_num)]

/-- Counterexample to C2: the swept grid contains the stride 256 (beyond the
claimed maximum 128) and the length 131072 (beyond the claimed maximum
65536), because each `while` loop pushes one doubled value after the bound
check on the previous back. -/
theorem grid_exceeds_claimed_bounds :
    256 ∈ stride_sizes ∧ 131072 ∈ length_sizes := by
  rw [stride_sizes_eq, length_sizes_eq]
  exact ⟨by norm_num, by norm_num⟩

/-- C2 (amended): the fixed grid consists of the strides `1, 2, …, 256`
(powers of two up to and including 256), the lengths `256, 512, …, 131072`
(powers of two up to and including 131072), and exactly 100 trials per cell. -/
theorem grid_definition :
    stride_sizes = [1, 2, 4, 8, 16, 32, 64, 128, 256] ∧
    length_sizes = [256, 512, 1024, 2048, 4096, 8192, 16384, 32768, 65536, 131072] ∧
    numTrials = 100 :=
  ⟨stride_sizes_eq, length_sizes_eq, rfl⟩

/-! ## Skip rule and aggregation -/

/-- C6: for every `(length, stride)` pair with `length / stride <= 4` (integer
division, as in the source), `measure` never invokes the result callback for
that pair: its `(i, j)` cell is not among the callback invocations. -/
theorem measure_skip_rule (strideSizes lengthSizes : List Nat) (i j : Nat)
    (h : lengthSizes.getD i 0 / strideSizes.getD j 0 ≤ 4) :
    (i, j) ∉ measureCalls strideSizes lengthSizes := by
  intro hmem
  unfold measureCalls at hmem
  rw [List.mem_flatMap] at hmem
  obtain ⟨a, _, hmem⟩ := hmem
  rw [List.mem_filterMap] at hmem
  obtain ⟨b, _, heq⟩ := hmem
  by_cases hc : lengthSizes.getD a 0 / strideSizes.getD b 0 ≤ 4
  · rw [if_pos hc] at heq
    cases heq
  · rw [if_neg hc, Option.some_inj, Prod.mk.injEq] at heq
    obtain ⟨rfl, rfl⟩ := heq
    exact hc h

/-- Witness for C6: length 256 with stride 64 gives `256 / 64 = 4 ≤ 4`, and
the harness run on those singleton lists produces no callback for cell (0,0). -/
theorem measure_skip_rule_witness : (0, 0) ∉ measureCalls [64] [256] :=
  measure_skip_rule [64] [256] 0 0 (by decide)

/-- C7: a grid cell with zero collected samples aggregates to NaN (modelled as
`none`), never `some` of a finite value such as zero: `average` on the empty
sample list returns the NaN marker. -/
theorem average_empty_is_nan : average ([] : List Int) = none := rfl

/-- C10: `average` mutates its argument: a non-empty vector is left sorted
ascending and is a permutation (same multiset) of its original contents, while
an empty vector is left unchanged. -/
theorem average_sorts_argument (l : List Int) :
    (l ≠ [] → (averageRun l).2.Sorted (· ≤ ·) ∧ (averageRun l).2.Perm l) ∧
    (l = [] → (averageRun l).2 = l) := by
  constructor
  · intro hne
    have h2 : (averageRun l).2 = sortedVals l := by
      unfold averageRun
      rw [if_neg hne]
      by_cases he : l.length * 4 / 5 = 0 <;> simp [he]
    rw [h2]
    exact ⟨List.sorted_insertionSort _ _, List.perm_insertionSort _ _⟩
  · intro he
    rw [he]
    rfl

/-- Witness for C10: the vector `[3, 1, 2]` ends up sorted as a permutation of
itself, and the empty vector is left unchanged. -/
theorem average_sorts_argument_witness :
    ((averageRun [3, 1, 2]).2.Sorted (· ≤ ·) ∧ (averageRun [3, 1, 2]).2.Perm [3, 1, 2]) ∧
    (averageRun ([] : List Int)).2 = [] :=
  ⟨(average_sorts_argument [3, 1, 2]).1 (by decide), (average_sorts_argument []).2 rfl⟩

/-- The index of the 80th-percentile value of a sorted list of `T` samples
(nearest-rank definition: 1-based rank `⌈0.8 T⌉`). -/
def percentile80Index (T : Nat) : Nat := (4 * T + 4) / 5 - 1

/-- Counterexample to C4: for the non-empty single-sample list `[5]` the
aggregate is not a value lying between the minimum and the 80th-percentile
value — the kept count is `(int)(1 * 0.8) = 0` and the source computes
`0.0 / 0`, a NaN (`none`), so no such value exists (in particular the
aggregate of one identical value 5 is not 5). -/
theorem average_single_sample_no_bounds :
    ¬ ∃ q : ℚ, average [(5 : Int)] = some q ∧
      ((sortedVals [(5 : Int)]).getD 0 0 : ℚ) ≤ q ∧
      q ≤ ((sortedVals [(5 : Int)]).getD (percentile80Index 1) 0 : ℚ) := by
  rintro ⟨q, hq, -⟩
  rw [show average [(5 : Int)] = none from rfl] at hq
  cases hq

/-- C4 (amended): for every list of at least two samples the trimmed-mean
aggregate (sort ascending, keep the lowest `floor(T * 0.8)` values, take their
arithmetic mean) is a value lying between the minimum (the sorted list's head)
and the 80th-percentile value of the sorted list, and for identical values `v`
it equals `v` exactly.  (For a single-sample list the kept count is zero and
the aggregate is NaN, see the counterexample.) -/
theorem average_trimmed_mean_bounds (l : List Int) (hlen : 2 ≤ l.length) :
    ∃ q : ℚ, average l = some q ∧
      ((sortedVals l).getD 0 0 : ℚ) ≤ q ∧
      q ≤ ((sortedVals l).getD (percentile80Index l.length) 0 : ℚ) ∧
      ∀ v : Int, (∀ x ∈ l, x = v) → q = v := by
  have hne : l ≠ [] := by
    intro h
    rw [h] at hlen
    simp at hlen
  have hslen : (sortedVals l).length = l.length := List.length_insertionSort _ l
  have hsort : (sortedVals l).Sorted (· ≤ ·) := List.sorted_insertionSort _ _
  have hperml : (sortedVals l).Perm l := List.perm_insertionSort _ _
  have he1 : 1 ≤ l.length * 4 / 5 := by omega
  have hele : l.length * 4 / 5 ≤ l.length := by omega
  have hpl : percentile80Index l.length < l.length := by
    unfold percentile80Index
    omega
  have hep : l.length * 4 / 5 - 1 ≤ percentile80Index l.length := by
    unfold percentile80Index
    omega
  set s := sortedVals l with hsdef
  set e := l.length * 4 / 5 with hedef
  have havg : average l = some (((s.take e).map (fun x : Int => (x : ℚ))).sum / (e : ℚ)) := by
    unfold average averageRun
    rw [if_neg hne]
    have hne0 : ¬ (l.length * 4 / 5 = 0) := by omega
    simp [hne0, hsdef]
  have hbound : ∀ x ∈ s.take e, s.getD 0 0 ≤ x ∧ x ≤ s.getD (percentile80Index l.length) 0 := by
    intro x hx
    rw [List.mem_iff_getElem] at hx
    obtain ⟨i, hi, rfl⟩ := hx
    have hie : i < e := by
      rw [List.length_take] at hi
      omega
    have his : i < s.length := by omega
    have h0s : 0 < s.length := by omega
    have hps : percentile80Index l.length < s.length := by omega
    rw [List.getElem_take]
    constructor
    · have h := hsort.rel_get_of_le (a := ⟨0, h0s⟩) (b := ⟨i, his⟩)
        (by exact Nat.zero_le i)
      rw [List.getD_eq_getElem _ _ h0s]
      simpa [List.get_eq_getElem] using h
    · have h := hsort.rel_get_of_le (a := ⟨i, his⟩) (b := ⟨percentile80Index l.length, hps⟩)
        (by show i ≤ percentile80Index l.length; omega)
      rw [List.getD_eq_getElem _ _ hps]
      simpa [List.get_eq_getElem] using h
  have hkeptlen : ((s.take e).map (fun x : Int => (x : ℚ))).length = e := by
    rw [List.length_map, List.length_take]
    omega
  have he0Q : (0 : ℚ) < (e : ℚ) := by
    exact_mod_cast he1
  refine ⟨((s.take e).map (fun x : Int => (x : ℚ))).sum / (e : ℚ), havg, ?_, ?_, ?_⟩
  · rw [le_div_iff₀ he0Q]
    have h := List.card_nsmul_le_sum ((s.take e).map (fun x : Int => (x : ℚ)))
      ((s.getD 0 0 : Int) : ℚ) ?_
    · rw [hkeptlen, nsmul_eq_mul] at h
      calc ((s.getD 0 0 : Int) : ℚ) * (e : ℚ) = (e : ℚ) * ((s.getD 0 0 : Int) : ℚ) := by ring
        _ ≤ _ := h
    · intro x hx
      rw [List.mem_map] at hx
      obtain ⟨y, hy, rfl⟩ := hx
      exact_mod_cast (hbound y hy).1
  · rw [div_le_iff₀ he0Q]
    have h := List.sum_le_card_nsmul ((s.take e).map (fun x : Int => (x : ℚ)))
      ((s.getD (percentile80Index l.length) 0 : Int) : ℚ) ?_
    · rw [hkeptlen, nsmul_eq_mul] at h
      calc ((s.take e).map (fun x : Int => (x : ℚ))).sum ≤
          (e : ℚ) * ((s.getD (percentile80Index l.length) 0 : Int) : ℚ) := h
        _ = ((s.getD (percentile80Index l.length) 0 : Int) : ℚ) * (e : ℚ) := by ring
    · intro x hx
      rw [List.mem_map] at hx
      obtain ⟨y, hy, rfl⟩ := hx
      exact_mod_cast (hbound y hy).2
  · intro v hv
    have hrep : (s.take e).map (fun x : Int => (x : ℚ)) = List.replicate e ((v : ℚ)) := by
      rw [List.eq_replicate_iff]
      refine ⟨hkeptlen, ?_⟩
      intro b hb
      rw [List.mem_map] at hb
      obtain ⟨y, hy, rfl⟩ := hb
      rw [hv y (hperml.subset (List.take_subset _ _ hy))]
    rw [hrep, List.sum_replicate, nsmul_eq_mul]
    exact mul_div_cancel_left₀ _ (ne_of_gt he0Q)

/-- Witness for C4 (amended) at the three-sample list `[3, 1, 2]`. -/
theorem average_trimmed_mean_bounds_witness :
    ∃ q : ℚ, average [3, 1, 2] = some q ∧
      ((sortedVals [3, 1, 2]).getD 0 0 : ℚ) ≤ q ∧
      q ≤ ((sortedVals [3, 1, 2]).getD (percentile80Index ([3, 1, 2] : List Int).length) 0 : ℚ) ∧
      ∀ v : Int, (∀ x ∈ ([3, 1, 2] : List Int), x = v) → q = v :=
  average_trimmed_mean_bounds [3, 1, 2] (by decide)

/-! ## Breakpoint scans -/

/-- `find?` over `range' s m` finds `some a` exactly when `a` is the least
index in `[s, s + m)` satisfying the predicate. -/
theorem find?_range'_eq_some (p : Nat → Bool) :
    ∀ m s a : Nat,
      (List.range' s m).find? p = some a ↔
        s ≤ a ∧ a < s + m ∧ p a = true ∧ ∀ i, s ≤ i → i < a → p i = false := by
  intro m
  induction m with
  | zero =>
    intro s a
    constructor
    · intro h
      cases h
    · rintro ⟨h1, h2, -, -⟩
      omega
  | succ m ih =>
    intro s a
    rw [List.range'_succ]
    by_cases hps : p s = true
    · rw [List.find?_cons_of_pos _ hps]
      constructor
      · intro h
        injection h with h
        subst h
        exact ⟨Nat.le_refl _, by omega, hps, fun i h1 h2 => absurd h2 (by omega)⟩
      · rintro ⟨h1, h2, hpa, hmin⟩
        have ha : a = s := by
          by_contra hne
          have hfalse : p s = false := hmin s (Nat.le_refl _) (by omega)
          rw [hps] at hfalse
          cases hfalse
        rw [ha]
    · rw [List.find?_cons_of_neg _ hps, ih (s + 1) a]
      have hpsf : p s = false := by
        cases hb : p s
        · rfl
        · exact absurd hb hps
      constructor
      · rintro ⟨h1, h2, hpa, hmin⟩
        refine ⟨by omega, by omega, hpa, ?_⟩
        intro i hi1 hi2
        rcases Nat.eq_or_lt_of_le hi1 with rfl | hi
        · exact hpsf
        · exact hmin i (by omega) hi2
      · rintro ⟨h1, h2, hpa, hmin⟩
        have hsa : s ≠ a := by
          rintro rfl
          rw [hpa] at hpsf
          cases hpsf
        exact ⟨by omega, by omega, hpa, fun i hi1 hi2 => hmin i (by omega) hi2⟩

/-- `find?` over `range' s m` returns `none` exactly when no index in
`[s, s + m)` satisfies the predicate. -/
theorem find?_range'_eq_none (p : Nat → Bool) :
    ∀ m s : Nat,
      (List.range' s m).find? p = none ↔ ∀ i, s ≤ i → i < s + m → p i = false := by
  intro m
  induction m with
  | zero =>
    intro s
    constructor
    · intro _ i h1 h2
      omega
    · intro _
      rfl
  | succ m ih =>
    intro s
    rw [List.range'_succ]
    by_cases hps : p s = true
    · rw [List.find?_cons_of_pos _ hps]
      constructor
      · intro h
        cases h
      · intro h
        have hfalse := h s (Nat.le_refl _) (by omega)
        rw [hps] at hfalse
        cases hfalse
    · rw [List.find?_cons_of_neg _ hps, ih (s + 1)]
      have hpsf : p s = false := by
        cases hb : p s
        · rfl
        · exact absurd hb hps
      constructor
      · intro h i hi1 hi2
        rcases Nat.eq_or_lt_of_le hi1 with rfl | hi
        · exact hpsf
        · exact h i (by omega) (by omega)
      · intro h i hi1 hi2
        exact h i (by omega) (by omega)

/-- A grid whose only capacity jump along the length axis (stride column 0)
is at the very last length index 9: latency 10 below, 100 there. -/
def avLastJump : Nat → Nat → ℚ := fun i _ => if i = 9 then 100 else 10

/-- C5 at its failing input `avLastJump`: the length list has 10 entries and
the grid jumps by more than the 1.2 factor at the last length index 9 (so a
scan of all lengths — `find_cache_length` applied to `length_sizes.length` —
returns index 8), yet the program reports "not found", because `main` passes
`strides = stride_sizes.size() = 9` (not the length count) as the `lengths`
parameter of `find_cache_length`, so the scan never examines the last
length row. -/
theorem capacity_scan_misses_last_length :
    length_sizes.length = 10 ∧
    avLastJump 8 0 * (6 / 5) < avLastJump 9 0 ∧
    find_cache_length length_sizes.length avLastJump = some 8 ∧
    (mainOutputs avLastJump).1 = none := by
  have hlen10 : length_sizes.length = 10 := by
    rw [length_sizes_eq]
    rfl
  have hlen9 : stride_sizes.length = 9 := by
    rw [stride_sizes_eq]
    rfl
  have hval : ∀ i, i ≠ 9 → avLastJump i 0 = 10 := by
    intro i hi
    unfold avLastJump
    rw [if_neg hi]
  have hfalse : ∀ i, 1 ≤ i → i < 9 →
      decide (avLastJump (i - 1) 0 * (6 / 5) < avLastJump i 0) = false := by
    intro i h1 h2
    rw [hval i (by omega), hval (i - 1) (by omega), decide_eq_false_iff_not]
    norm_num
  refine ⟨hlen10, by norm_num [avLastJump], ?_, ?_⟩
  · rw [hlen10]
    unfold find_cache_length
    rw [show (10 : Nat) - 1 = 9 from rfl,
      (find?_range'_eq_some _ 9 1 9).mpr
        ⟨by omega, by omega, ?_, fun i hi1 hi2 => hfalse i hi1 hi2⟩]
    · rfl
    · rw [hval 8 (by omega), decide_eq_true_eq]
      norm_num [avLastJump]
  · have hnone : find_cache_length stride_sizes.length avLastJump = none := by
      rw [hlen9]
      unfold find_cache_length
      rw [show (9 : Nat) - 1 = 8 from rfl,
        (find?_range'_eq_none _ 8 1).mpr (fun i hi1 hi2 => hfalse i hi1 (by omega))]
      rfl
    unfold mainOutputs
    rw [hnone]
    rfl

/-- A grid with no capacity jump anywhere along the length axis at stride
column 0, but with a line-size jump inside length row 0 at stride index 4. -/
def avCex : Nat → Nat → ℚ := fun i j => if i = 0 ∧ 4 ≤ j then 100 else 10

/-- On `avCex`, `main`'s capacity scan (over `strides = 9` rows) finds no
jump at the smallest stride. -/
theorem avCex_capacity_none : find_cache_length stride_sizes.length avCex = none := by
  rw [show stride_sizes.length = 9 by rw [stride_sizes_eq]; rfl]
  unfold find_cache_length
  rw [show (9 : Nat) - 1 = 8 from rfl, (find?_range'_eq_none _ 8 1).mpr ?_]
  · rfl
  · intro i hi1 hi2
    have hv : ∀ k, avCex k 0 = 10 := by
      intro k
      unfold avCex
      rw [if_neg (by omega)]
    rw [hv i, hv (i - 1), decide_eq_false_iff_not]
    norm_num

/-- Counterexample to C3: on the grid `avCex` the capacity breakpoint is not
found (the program reports capacity "not found"), yet the line-size scan is
still performed — on row 0 — and reports a found line size of 64 bytes
(stride index 4, i.e. stride 16 elements), rather than being skipped. -/
theorem line_scan_runs_without_capacity :
    (mainOutputs avCex).1 = none ∧ (mainOutputs avCex).2 = some 64 := by
  unfold mainOutputs
  rw [avCex_capacity_none]
  refine ⟨rfl, ?_⟩
  show (find_cache_line_length (-1) stride_sizes.length avCex).map
    (fun i => stride_sizes.getD i 0 * 4) = some 64
  have hline : find_cache_line_length (-1) stride_sizes.length avCex = some 4 := by
    rw [show stride_sizes.length = 9 by rw [stride_sizes_eq]; rfl]
    unfold find_cache_line_length
    rw [show (9 : Nat) - 1 = 8 from rfl]
    rw [(find?_range'_eq_some _ 8 1 4).mpr ⟨by omega, by omega, ?_, ?_⟩]
    · have h3 : avCex ((-1 : Int) + 1).toNat 3 = 10 := by
        unfold avCex
        rw [if_neg (by omega)]
      have h4 : avCex ((-1 : Int) + 1).toNat 4 = 100 := by
        unfold avCex
        rw [if_pos ⟨rfl, by omega⟩]
      rw [show (4 : Nat) - 1 = 3 from rfl, h3, h4, decide_eq_true_eq]
      norm_num
    · intro i hi1 hi2
      have hlow : ∀ k, k ≤ 3 → avCex ((-1 : Int) + 1).toNat k = 10 := by
        intro k hk
        unfold avCex
        rw [if_neg (by omega)]
      rw [hlow i (by omega), hlow (i - 1) (by omega), decide_eq_false_iff_not]
      norm_num
  rw [hline, stride_sizes_eq]
  rfl

/-- C3 (amended): if the capacity breakpoint is not found, the program
reports the capacity as "not found", but the line-size scan is still
attempted: `find_cache_line_length` is called with `cache_length_idx = -1`,
so it scans grid row `(-1 + 1) = 0` (the smallest length) and its result is
reported as the line size. -/
theorem capacity_miss_still_scans_row_zero (av : Nat → Nat → ℚ)
    (h : find_cache_length stride_sizes.length av = none) :
    (mainOutputs av).1 = none ∧
    (mainOutputs av).2 =
      ((List.range' 1 (stride_sizes.length - 1)).find?
          (fun i => decide (av 0 (i - 1) * (11 / 10) < av 0 i))).map
        (fun i => stride_sizes.getD i 0 * 4) := by
  unfold mainOutputs
  rw [h]
  exact ⟨rfl, rfl⟩

/-- Witness for C3 (amended) at the concrete grid `avCex`, whose capacity
scan comes up empty. -/
theorem capacity_miss_still_scans_row_zero_witness :
    (mainOutputs avCex).1 = none ∧
    (mainOutputs avCex).2 =
      ((List.range' 1 (stride_sizes.length - 1)).find?
          (fun i => decide (avCex 0 (i - 1) * (11 / 10) < avCex 0 i))).map
        (fun i => stride_sizes.getD i 0 * 4) :=
  capacity_miss_still_scans_row_zero avCex avCex_capacity_none

/-! ## Allocation handling in `measure` -/

/-- The element offsets written by one iteration of the `measure` loop, with
the `aligned_alloc` result made explicit: the source stores the raw returned
pointer and immediately hands it to `create_cycle` without any null check, so
a failed allocation (`none`, i.e. a null base, address 0) is used exactly like
a successful allocation at base 0 — the iteration's stores are the cycle
store offsets shifted by the base, and no abort branch exists. -/
def measureIterWriteAddrs (allocBase : Option Nat) (stride : Nat)
    (perm : List Nat) : List Nat :=
  let base := match allocBase with
    | some b => b
    | none => 0
  (cycleWrites stride 0 (perm ++ [0])).map (fun w => base + w.1)

/-- C8 at its failing input: when allocation fails (`none`), the iteration
still performs the cycle stores through the null buffer — the write list is
non-empty and identical to the one through a buffer at address 0 — instead of
aborting with a message; the source silently ignores allocation failure. -/
theorem alloc_failure_still_measured :
    measureIterWriteAddrs none 1 [3, 1, 4, 2] ≠ [] ∧
    measureIterWriteAddrs none 1 [3, 1, 4, 2] =
      measureIterWriteAddrs (some 0) 1 [3, 1, 4, 2] :=
  ⟨by decide, rfl⟩

end TLBC
